import Mathlib

/-!
Verification development for the terraform-report-html repository.

The embedded code comes from two source files:
  * `terraform_diff.py` — the `FilterModule` with `diff_yaml`, `restrict_before`,
    `_extract_changes`, `_diff` and `_diff_list`;
  * `terraform_plan_report.py` — `_clean_value`, `_redact` and the per-resource
    loop body of `ActionModule.run`.

Python values (the JSON-like trees the plugin manipulates) are modelled by the
`Value` type below.  Python `None` is `Value.null`; Python dicts are modelled as
association lists of string keys in insertion order (real dicts never hold a
duplicate key); numbers are modelled as integers (the claims under study do not
depend on float behaviour); `repr` of a string does not re-escape special
characters inside the string (no claim depends on that text).  Code that can
raise a Python exception is embedded as an `Option`-valued function, `none`
standing for an uncaught exception.
-/

set_option maxHeartbeats 1000000

namespace TfReport

/-- Recursive JSON-like tree datum manipulated by the plugin. -/
inductive Value where
  | null
  | bool (b : Bool)
  | num (n : Int)
  | str (s : String)
  | seq (xs : List Value)
  | map (kvs : List (String × Value))

/-- Test for the Python `is None` identity check. -/
def Value.isNull : Value → Bool
  | .null => true
  | _ => false

/-- Test for `isinstance(v, list)`. -/
def Value.isSeq : Value → Bool
  | .seq _ => true
  | _ => false

/-- Test for `isinstance(v, dict)`. -/
def Value.isMap : Value → Bool
  | .map _ => true
  | _ => false

/-- Test for `isinstance(v, (dict, list))`, the container check of `_diff`. -/
def Value.isContainer : Value → Bool
  | .seq _ => true
  | .map _ => true
  | _ => false

/-- Python truthiness of a `Value` (`bool(v)`): `None`, `False`, `0`, the empty
string and empty containers are falsy, everything else is truthy. -/
def pyTruthy : Value → Bool
  | .null => false
  | .bool b => b
  | .num n => !(n == 0)
  | .str s => !s.isEmpty
  | .seq xs => !xs.isEmpty
  | .map kvs => !kvs.isEmpty

/-- Lookup of a key in an association list, i.e. `d[k]` / `d.get(k)` on a dict
(first binding wins, which agrees with a real dict where keys are unique). -/
def alookup (k : String) : List (String × Value) → Option Value
  | [] => none
  | (k2, v) :: rest => if k2 = k then some v else alookup k rest

mutual

/-- Python `==` on `Value`s: scalars compare by value with the `bool`/`int`
numeric coercion (`True == 1`), lists compare pointwise, dicts compare by
length together with key-wise lookup. -/
def pyEq : Value → Value → Bool
  | .null, .null => true
  | .bool b, .bool c => b == c
  | .bool b, .num n => (if b then (1 : Int) else 0) == n
  | .num n, .bool b => n == (if b then (1 : Int) else 0)
  | .num m, .num n => m == n
  | .str s, .str t => s == t
  | .seq xs, .seq ys => pyEqList xs ys
  | .map m1, .map m2 => m1.length == m2.length && pyEqMap m1 m2
  | _, _ => false

/-- Pointwise Python `==` on lists. -/
def pyEqList : List Value → List Value → Bool
  | [], [] => true
  | x :: xs, y :: ys => pyEq x y && pyEqList xs ys
  | _, _ => false

/-- Key-wise Python `==` of dict entries: every entry of the first dict must be
matched by an equal value under the same key in the second. -/
def pyEqMap : List (String × Value) → List (String × Value) → Bool
  | [], _ => true
  | (k, v) :: rest, m2 =>
    (match alookup k m2 with
     | some w => pyEq v w
     | none => false) && pyEqMap rest m2

end

/-- Key list of a list of dict entries. -/
def entryKeys (kvs : List (String × Value)) : List String := kvs.map Prod.fst

/-- Pairwise distinctness of a key list (the dict invariant). -/
def distinctKeys : List String → Bool
  | [] => true
  | k :: rest => !(rest.contains k) && distinctKeys rest

mutual

/-- Well-formedness of a `Value` as the image of a real Python tree: every
mapping in it has pairwise distinct keys. -/
def wf : Value → Bool
  | .seq xs => wfList xs
  | .map kvs => distinctKeys (entryKeys kvs) && wfEntries kvs
  | _ => true

/-- Well-formedness of every element of a list. -/
def wfList : List Value → Bool
  | [] => true
  | x :: xs => wf x && wfList xs

/-- Well-formedness of every value of a dict entry list. -/
def wfEntries : List (String × Value) → Bool
  | [] => true
  | kv :: rest => wf kv.2 && wfEntries rest

end

/-! ## Normalizer: `_clean_value` from `terraform_plan_report.py` -/

mutual

/-- Embedding of `_clean_value(value, keep_root_empty_dict=keepRoot)`:
recursively drop `None` values, lists cleaned to emptiness and dicts cleaned to
emptiness; a dict cleaned to emptiness at the root is kept as an empty dict
when `keepRoot` is set.  The Python function returns `None` for a fully empty
value, which is `Value.null` here. -/
def clean_value (keepRoot : Bool) : Value → Value
  | .null => .null
  | .seq xs =>
    let cleaned := cleanList xs
    bif cleaned.isEmpty then .null else .seq cleaned
  | .map kvs =>
    let cleaned := cleanEntries kvs
    bif cleaned.isEmpty then (bif keepRoot then .map [] else .null) else .map cleaned
  | v => v

/-- List comprehension of `_clean_value`: clean every element, dropping the
ones that clean to `None`. -/
def cleanList : List Value → List Value
  | [] => []
  | x :: xs =>
    let cv := clean_value false x
    bif cv.isNull then cleanList xs else cv :: cleanList xs

/-- Dict loop of `_clean_value`: clean every entry value, dropping entries
whose value cleans to `None`. -/
def cleanEntries : List (String × Value) → List (String × Value)
  | [] => []
  | (k, x) :: rest =>
    let cv := clean_value false x
    bif cv.isNull then cleanEntries rest else (k, cv) :: cleanEntries rest

end

/-! ## Redactor: `_redact` from `terraform_plan_report.py` -/

/-- Fixed mask token substituted for redacted values. -/
def MASK : String := "**********"

/-- Embedding of Python `str.lower()` (character-wise lower-casing; the keys
involved are ASCII identifiers). -/
def strLower (s : String) : String := String.mk (s.data.map Char.toLower)

mutual

/-- Embedding of `_redact(obj, keys)`: in every dict, an entry whose key
lower-cases into `keys` has its value replaced by `MASK` without recursion;
other entries recurse; lists recurse element-wise; scalars pass through. -/
def redact (keys : List String) : Value → Value
  | .map kvs => .map (redactEntries keys kvs)
  | .seq xs => .seq (redactList keys xs)
  | v => v

/-- Element-wise redaction of a list. -/
def redactList (keys : List String) : List Value → List Value
  | [] => []
  | x :: xs => redact keys x :: redactList keys xs

/-- Entry-wise redaction of a dict. -/
def redactEntries (keys : List String) : List (String × Value) → List (String × Value)
  | [] => []
  | (k, v) :: rest =>
    (bif keys.contains (strLower k) then (k, .str MASK) else (k, redact keys v)) ::
      redactEntries keys rest

end

/-! ## Change extraction: `FilterModule._extract_changes` -/

mutual

/-- Embedding of `_extract_changes(before, after)`: on a dict/dict pair reduce
to the changed entries (an empty result dict becomes `None` via `or None`); on
a list/list pair return the pair whole if unequal and `(None, None)` if equal;
otherwise compare as whole values. -/
def extract_changes : Value → Value → Value × Value
  | .map bkvs, .map akvs =>
    let outs := extractEntries bkvs akvs
    ((bif outs.1.isEmpty then .null else .map outs.1),
     (bif outs.2.isEmpty then .null else .map outs.2))
  | .seq bs, .seq as2 =>
    bif pyEqList bs as2 then (.null, .null) else (.seq bs, .seq as2)
  | b, a => bif pyEq b a then (.null, .null) else (b, a)

/-- Loop of `_extract_changes` over the keys of `after`: a key absent from
`before` contributes `(None, after[k])`; a key present on both sides recurses
and contributes its result unless both sides come back `None`. -/
def extractEntries (bkvs : List (String × Value)) :
    List (String × Value) → List (String × Value) × List (String × Value)
  | [] => ([], [])
  | (k, av) :: rest =>
    match alookup k bkvs with
    | none =>
      let tail := extractEntries bkvs rest
      ((k, .null) :: tail.1, (k, av) :: tail.2)
    | some bv =>
      let r := extract_changes bv av
      let tail := extractEntries bkvs rest
      bif r.1.isNull && r.2.isNull then tail
      else ((k, r.1) :: tail.1, (k, r.2) :: tail.2)

end

/-! ## Key restriction: `FilterModule.restrict_before` -/

/-- Dict comprehension `{k: before.get(k) for k in after.keys()}` used by both
`diff_yaml` and `restrict_before` on a replace. -/
def restrictEntries (bkvs akvs : List (String × Value)) : List (String × Value) :=
  akvs.map fun ka => (ka.1, (alookup ka.1 bkvs).getD .null)

/-- Embedding of `FilterModule.restrict_before(before, after, actions)`:
falsy inputs are coerced to empty dicts, a plain update first extracts
changes, and a replace on two dicts restricts `before` to the keys of
`after`. -/
def restrict_before (before after : Value) (actions : List String) : Value :=
  let b0 := bif pyTruthy before then before else .map []
  let a0 := bif pyTruthy after then after else .map []
  let isReplace := actions.contains "create" && actions.contains "delete"
  let isUpdate : Bool := actions = ["update"]
  let b1 := bif isUpdate then (extract_changes b0 a0).1 else b0
  bif isReplace then
    (match b1, a0 with
     | .map bkvs, .map akvs => .map (restrictEntries bkvs akvs)
     | _, _ => b1)
  else b1

/-! ## Rendering support: text of the emitted lines -/

/-- Annotation tag of a rendered line. -/
inductive Tag where
  | added
  | updated
  | removed
  | unchanged
  deriving DecidableEq

/-- One rendered line: its classification tag together with the exact text the
Python code appends (markup included). -/
structure Line where
  tag : Tag
  text : String
  deriving DecidableEq

/-- Escape of one character as done by `html.escape` (quote=True). -/
def htmlEscapeChar (c : Char) : String :=
  if c = '&' then "&amp;"
  else if c = '<' then "&lt;"
  else if c = '>' then "&gt;"
  else if c = '"' then "&quot;"
  else if c = Char.ofNat 39 then "&#x27;"
  else String.singleton c

/-- Embedding of `html.escape(s)`. -/
def htmlEscape (s : String) : String := String.join (s.toList.map htmlEscapeChar)

/-- Single-quote character used by the Python `repr` of strings. -/
def pyQuote : String := String.singleton (Char.ofNat 39)

mutual

/-- Python `repr` of a `Value` (special characters inside strings are not
re-escaped; no claim depends on that text). -/
def pyRepr : Value → String
  | .null => "None"
  | .bool true => "True"
  | .bool false => "False"
  | .num n => toString n
  | .str s => pyQuote ++ s ++ pyQuote
  | .seq xs => "[" ++ pyReprList xs ++ "]"
  | .map kvs => "\x7b" ++ pyReprEntries kvs ++ "\x7d"

/-- Comma-joined `repr` of list elements. -/
def pyReprList : List Value → String
  | [] => ""
  | [x] => pyRepr x
  | x :: xs => pyRepr x ++ ", " ++ pyReprList xs

/-- Comma-joined `repr` of dict entries. -/
def pyReprEntries : List (String × Value) → String
  | [] => ""
  | [(k, v)] => pyQuote ++ k ++ pyQuote ++ ": " ++ pyRepr v
  | (k, v) :: rest => pyQuote ++ k ++ pyQuote ++ ": " ++ pyRepr v ++ ", " ++ pyReprEntries rest

end

/-- Python `str` of a `Value`: a string prints bare, everything else prints as
its `repr`. -/
def pyStr : Value → String
  | .str s => s
  | v => pyRepr v

/-- Markup wrapper for an added line. -/
def spanAdd (s : String) : String := "<span class=\"diff-add\">" ++ s ++ "</span>"

/-- Markup wrapper for an updated line. -/
def spanUpd (s : String) : String := "<span class=\"diff-update\">" ++ s ++ "</span>"

/-- Markup wrapper for a removed line. -/
def spanDel (s : String) : String := "<span class=\"diff-del\">" ++ s ++ "</span>"

/-- Indentation padding `"  " * indent`. -/
def padOf (indent : Nat) : String := String.join (List.replicate indent "  ")

/-! ## Sorting of dict keys (`sorted(...)` in the renderer) -/

/-- Insertion step of a stable insertion sort of per-key line blocks. -/
def insertBlock (p : String × List Line) : List (String × List Line) → List (String × List Line)
  | [] => [p]
  | q :: rest => if p.1 ≤ q.1 then p :: q :: rest else q :: insertBlock p rest

/-- Stable sort of per-key line blocks by key, realising iteration of a dict
in `sorted(d.keys())` order. -/
def sortBlocks : List (String × List Line) → List (String × List Line)
  | [] => []
  | p :: rest => insertBlock p (sortBlocks rest)

/-- Concatenation of the line blocks of consecutive keys. -/
def joinBlocks : List (String × List Line) → List Line
  | [] => []
  | b :: rest => b.2 ++ joinBlocks rest

/-- Insertion step of an insertion sort of plain strings. -/
def insertString (p : String) : List String → List String
  | [] => [p]
  | q :: rest => if p ≤ q then p :: q :: rest else q :: insertString p rest

/-- Sort of plain strings, used for the removed-keys loop. -/
def sortStrings : List String → List String
  | [] => []
  | p :: rest => insertString p (sortStrings rest)

/-! ## Sequence rendering: `FilterModule._diff_list` -/

/-- Python `len` where defined: lists, strings and dicts have a length, other
values raise `TypeError`. -/
def pyLen : Value → Option Nat
  | .seq xs => some xs.length
  | .str s => some s.length
  | .map kvs => some kvs.length
  | _ => none

/-- Python integer indexing `v[i]` for `i < len(v)`: lists index positionally,
strings yield a one-character string, dicts raise `KeyError` (their keys are
strings, never the integer `i`). -/
def pyIndex : Value → Nat → Option Value
  | .seq xs, i => xs[i]?
  | .str s, i => (s.toList[i]?).map fun c => .str c.toString
  | _, _ => none

/-- Lines contributed by one index of `_diff_list`: `b is None` renders as
added, else `a is None` as removed (skipped under suppression), else equal as
unchanged and unequal as updated. -/
def diffListLine (b a : Value) (pad : String) (suppress : Bool) : List Line :=
  let prefx := pad ++ "- "
  bif b.isNull then [⟨.added, prefx ++ spanAdd (htmlEscape (pyStr a))⟩]
  else bif a.isNull then
    (bif suppress then [] else [⟨.removed, prefx ++ spanDel (htmlEscape (pyStr b))⟩])
  else bif pyEq b a then [⟨.unchanged, prefx ++ htmlEscape (pyStr a)⟩]
  else [⟨.updated, prefx ++ spanUpd (htmlEscape (pyStr a))⟩]

/-- Index loop of `_diff_list` over a given list of indices; an out-of-range
side reads as `None` and an unindexable `before` propagates the exception. -/
def diffListGo (before : Value) (lb : Nat) (after : List Value) (pad : String)
    (suppress : Bool) : List Nat → Option (List Line)
  | [] => some []
  | i :: rest =>
    match (if i < lb then pyIndex before i else some .null) with
    | none => none
    | some b =>
      let a := (after[i]?).getD .null
      match diffListGo before lb after pad suppress rest with
      | none => none
      | some ls => some (diffListLine b a pad suppress ++ ls)

/-- Embedding of `_diff_list(before, after, indent, suppress_removals)`:
positional comparison up to `max(len(before), len(after))`; `len(before)` on
an unsized value raises. -/
def diff_list (before : Value) (after : List Value) (indent : Nat) (suppress : Bool) :
    Option (List Line) :=
  match pyLen before with
  | none => none
  | some lb => diffListGo before lb after (padOf indent) suppress (List.range (max lb after.length))

/-- Removal loop of `_diff`: keys of `before` absent from `after`, sorted,
each rendered as a removed line showing the before value. -/
def removedLines (bkvs akvs : List (String × Value)) (pad : String) : List Line :=
  (sortStrings ((entryKeys bkvs).filter fun k => !((entryKeys akvs).contains k))).map
    fun k =>
      ⟨.removed, pad ++ spanDel (htmlEscape k ++ ": " ++ htmlEscape (pyStr ((alookup k bkvs).getD .null)))⟩

/-! ## Tree rendering: `FilterModule._diff` -/

/-- Lines of one key of the dict branch of `_diff`: `blk` is `before.get(key)`
(`none` when the key is absent) and `sub` is the recursive rendering of the
child pair, which the Python code computes exactly in the branches that use it
(an absent key recurses against the empty dict; a present key recurses only
when the after value is a container; in the scalar branches `sub` is unused
and the line is emitted inline). -/
def keyBlock (k : String) (a : Value) (blk : Option Value) (pad : String)
    (sub : Option (List Line)) : Option (List Line) :=
  match blk with
  | none =>
    match sub with
    | none => none
    | some s2 => some (⟨.added, pad ++ spanAdd (htmlEscape k ++ ":")⟩ :: s2)
  | some b =>
    bif pyEq b a then
      (bif a.isContainer then
        (match sub with
         | none => none
         | some s2 => some (⟨.unchanged, pad ++ htmlEscape k ++ ":"⟩ :: s2))
      else some [⟨.unchanged, pad ++ htmlEscape k ++ ": " ++ htmlEscape (pyStr a)⟩])
    else
      bif a.isContainer then
        (match sub with
         | none => none
         | some s2 => some (⟨.updated, pad ++ spanUpd (htmlEscape k ++ ":")⟩ :: s2))
      else some [⟨.updated, pad ++ spanUpd (htmlEscape k ++ ": " ++ htmlEscape (pyStr a))⟩]

mutual

/-- Embedding of `_diff(before, after, indent, suppress_removals)`, dispatching
on the shape of `after`; a falsy `before` is coerced by `before or []` /
`before or` the empty dict, and a truthy `before` of an incompatible shape
propagates the Python exception as `none`.  The sorted-key iteration of the
dict branch is realised by computing each key's line block in dict order and
sorting the blocks by key afterwards, which yields the same line sequence as
iterating `sorted(after.keys())` because each key's block depends only on that
key's pair of values. -/
def diff (before after : Value) (indent : Nat) (suppress : Bool) : Option (List Line) :=
  match after with
  | .seq xs => diff_list (bif pyTruthy before then before else .seq []) xs indent suppress
  | .map akvs =>
    let before2 := bif pyTruthy before then before else .map []
    match akvs, before2 with
    | [], .map bkvs =>
      bif suppress then some [] else some (removedLines bkvs [] (padOf indent))
    | [], _ => bif suppress then some [] else none
    | _ :: _, .map bkvs =>
      match diffBlocks bkvs akvs indent suppress with
      | none => none
      | some blocks =>
        let ls := joinBlocks (sortBlocks blocks)
        bif suppress then some ls else some (ls ++ removedLines bkvs akvs (padOf indent))
    | _ :: _, _ => none
  | _ =>
    bif pyEq before after then some [⟨.unchanged, padOf indent ++ htmlEscape (pyStr after)⟩]
    else some [⟨.updated, padOf indent ++ spanUpd (htmlEscape (pyStr after))⟩]

/-- Per-key line block of the dict branch of `_diff`, one block per entry of
`after`: a key absent from `before` emits an added header and recurses against
an empty dict; a key present on both sides emits unchanged/updated inline or
recurses for containers (see `keyBlock`). -/
def diffBlocks (bkvs : List (String × Value)) :
    List (String × Value) → Nat → Bool → Option (List (String × List Line))
  | [], _, _ => some []
  | (k, a) :: rest, indent, suppress =>
    match keyBlock k a (alookup k bkvs) (padOf indent)
        (diff ((alookup k bkvs).getD (.map [])) a (indent + 1) suppress),
      diffBlocks bkvs rest indent suppress with
    | some hs, some ts => some ((k, hs) :: ts)
    | _, _ => none

end

/-! ## Top-level filter: `FilterModule.diff_yaml` -/

/-- Embedding of `FilterModule.diff_yaml(before, after, actions)`: coerce falsy
inputs to empty dicts, extract changes on a plain update, restrict the before
keys on a replace, then render with removals suppressed exactly on a
replace, joining the line texts with newlines. -/
def diff_yaml (before after : Value) (actions : List String) : Option String :=
  let b0 := bif pyTruthy before then before else .map []
  let a0 := bif pyTruthy after then after else .map []
  let isReplace := actions.contains "create" && actions.contains "delete"
  let isUpdate : Bool := actions = ["update"]
  let ba := bif isUpdate then extract_changes b0 a0 else (b0, a0)
  let b2 :=
    bif isReplace then
      (match ba.1, ba.2 with
       | .map bkvs, .map akvs => Value.map (restrictEntries bkvs akvs)
       | _, _ => ba.1)
    else ba.1
  (diff b2 ba.2 0 isReplace).map fun ls => String.intercalate "\n" (ls.map Line.text)

/-! ## Reporting pipeline: the per-resource loop body of `ActionModule.run` -/

/-- The coercion `_clean_value(x or {}, keep_root_empty_dict=True) or {}`
applied to each side of a resource change before comparison. -/
def cleanCoerce (v : Value) : Value :=
  let vR := bif pyTruthy v then v else .map []
  let c := clean_value true vR
  bif pyTruthy c then c else .map []

/-- Embedding of `d.pop(k, None)` on a dict entry list: drop the binding of
`k`. -/
def popKey (k : String) (kvs : List (String × Value)) : List (String × Value) :=
  kvs.filter fun kv => !(kv.1 == k)

/-- Outcome of processing one resource change in `ActionModule.run`: the
resource is skipped, aborts with the structured `device_name missing` failure,
or yields a grouped entry (its group key value and the two trees with
`device_name` popped). -/
inductive Outcome where
  | skip
  | fail
  | entry (device before after : Value)

/-- Embedding of one iteration of the `resource_changes` loop of
`ActionModule.run`: skip `no-op` actions, normalize both sides, skip when they
compare equal, redact, resolve the group key by truthiness of
`after.get("device_name") or before.get("device_name")`, failing when falsy,
and otherwise emit the entry with `device_name` popped from both trees.
`none` models an uncaught exception (a `.get`/`.pop` on a non-dict tree). -/
def processResource (beforeRaw afterRaw : Value) (redactKeys : List String)
    (actions : List String) : Option Outcome :=
  if actions = ["no-op"] then some .skip
  else
    let bC := cleanCoerce beforeRaw
    let aC := cleanCoerce afterRaw
    bif pyEq bC aC then some .skip
    else
      let b := redact redactKeys bC
      let a := redact redactKeys aC
      match a with
      | .map akvs =>
        let da := (alookup "device_name" akvs).getD .null
        bif pyTruthy da then
          match b with
          | .map bkvs =>
            some (.entry da (.map (popKey "device_name" bkvs)) (.map (popKey "device_name" akvs)))
          | _ => none
        else
          match b with
          | .map bkvs =>
            let db := (alookup "device_name" bkvs).getD .null
            bif pyTruthy db then
              some (.entry db (.map (popKey "device_name" bkvs)) (.map (popKey "device_name" akvs)))
            else some .fail
          | _ => none
      | _ => none

/-! ## Shape compatibility: the domain on which the renderer is total -/

mutual

/-- Sufficient shape compatibility of a before/after pair for the renderer:
wherever `after` is a sequence, `before` is falsy (so `before or []` coerces
it) or itself a sequence; wherever `after` is a mapping, `before` is falsy or
itself a mapping whose entries are recursively compatible with the
corresponding `after` entries; scalar `after` is always fine. -/
def compatible : Value → Value → Bool
  | b, .seq _ => !pyTruthy b || b.isSeq
  | b, .map akvs =>
    !pyTruthy b ||
      (match b with
       | .map bkvs => compatEntries bkvs akvs
       | _ => false)
  | _, _ => true

/-- Entry-wise compatibility: each `after` entry is compatible with the
corresponding `before` value (the empty dict when the key is absent). -/
def compatEntries (bkvs : List (String × Value)) : List (String × Value) → Bool
  | [] => true
  | (k, a) :: rest => compatible ((alookup k bkvs).getD (.map [])) a && compatEntries bkvs rest

end

/-- No line of a rendered output carries the `removed` tag. -/
def noRemoved (ls : List Line) : Bool := ls.all fun l => !(l.tag == Tag.removed)

/-- The per-index view of `_diff_list`: the element at `i`, or the `None`
sentinel when `i` is out of range. -/
def elemOr (xs : List Value) (i : Nat) : Value := (xs[i]?).getD .null

/-! # Supporting lemmas -/

theorem redactEntries_cons_pos (keys : List String) (k : String) (v : Value)
    (rest : List (String × Value)) (hk : keys.contains (strLower k) = true) :
    redactEntries keys ((k, v) :: rest) = (k, .str MASK) :: redactEntries keys rest := by
  simp only [redactEntries]
  rw [hk, cond_true]

theorem redactEntries_cons_neg (keys : List String) (k : String) (v : Value)
    (rest : List (String × Value)) (hk : keys.contains (strLower k) = false) :
    redactEntries keys ((k, v) :: rest) = (k, redact keys v) :: redactEntries keys rest := by
  simp only [redactEntries]
  rw [hk, cond_false]

theorem redactList_idem_of (keys : List String) (xs : List Value)
    (h : ∀ x ∈ xs, redact keys (redact keys x) = redact keys x) :
    redactList keys (redactList keys xs) = redactList keys xs := by
  induction xs with
  | nil => rfl
  | cons x rest ih =>
    simp only [redactList]
    rw [h x (by simp), ih fun y hy => h y (by simp [hy])]

theorem redactEntries_idem_of (keys : List String) (kvs : List (String × Value))
    (h : ∀ kv ∈ kvs, redact keys (redact keys kv.2) = redact keys kv.2) :
    redactEntries keys (redactEntries keys kvs) = redactEntries keys kvs := by
  induction kvs with
  | nil => rfl
  | cons kv rest ih =>
    obtain ⟨k, v⟩ := kv
    have hrest := ih fun kv2 hkv2 => h kv2 (by simp [hkv2])
    have hv : redact keys (redact keys v) = redact keys v := h ⟨k, v⟩ (by simp)
    cases hk : keys.contains (strLower k) with
    | true =>
      rw [redactEntries_cons_pos keys k v rest hk,
        redactEntries_cons_pos keys k (.str MASK) (redactEntries keys rest) hk, hrest]
    | false =>
      rw [redactEntries_cons_neg keys k v rest hk,
        redactEntries_cons_neg keys k (redact keys v) (redactEntries keys rest) hk, hv, hrest]

theorem redact_idem_aux (n : Nat) :
    ∀ v : Value, sizeOf v < n → ∀ keys, redact keys (redact keys v) = redact keys v := by
  induction n with
  | zero => intro v hv; omega
  | succ n ih =>
    intro v hv keys
    match v with
    | .null | .bool _ | .num _ | .str _ => rfl
    | .seq xs =>
      simp only [redact]
      rw [redactList_idem_of]
      intro x hx
      have h1 := List.sizeOf_lt_of_mem hx
      have h2 : sizeOf (Value.seq xs) = 1 + sizeOf xs := by simp
      exact ih x (by omega) keys
    | .map kvs =>
      simp only [redact]
      rw [redactEntries_idem_of]
      intro kv hkv
      have h1 := List.sizeOf_lt_of_mem hkv
      have h2 : sizeOf (Value.map kvs) = 1 + sizeOf kvs := by simp
      obtain ⟨k, v2⟩ := kv
      have h3 : sizeOf ((k, v2) : String × Value) = 1 + sizeOf k + sizeOf v2 := by simp
      exact ih v2 (by omega) keys

theorem redactEntries_append (keys : List String) (l1 l2 : List (String × Value)) :
    redactEntries keys (l1 ++ l2) = redactEntries keys l1 ++ redactEntries keys l2 := by
  induction l1 with
  | nil => rfl
  | cons kv rest ih =>
    obtain ⟨k, v⟩ := kv
    simp [redactEntries, ih]

/-- The coercion `d or {}` is the identity on dicts (an empty dict is falsy but
coerces to itself). -/
theorem coerce_map (kvs : List (String × Value)) :
    (bif pyTruthy (Value.map kvs) then Value.map kvs else Value.map []) = Value.map kvs := by
  cases kvs with
  | nil => rfl
  | cons kv rest => rfl

/-! # Claim C8: redaction idempotence -/

/-- C8: the Redactor is idempotent — `redact (redact v K) K = redact v K` for
every Value `v` and every key set `K`; masked entries stay masked on a second
pass and non-matching entries are unchanged by it. -/
theorem c8_redact_idem (keys : List String) (v : Value) :
    redact keys (redact keys v) = redact keys v :=
  redact_idem_aux (sizeOf v + 1) v (by omega) keys

/-! # Claim C9: redaction noninterference -/

/-- C9: for a mapping entry whose key lower-cases into the redaction key set,
replacing its value by any other value (of any shape) leaves the redacted tree
unchanged — the output under a matched key is the fixed mask token and carries
no information about the original value; consequently two sides differing only
in such a value render identically. -/
theorem c9_redact_noninterference (keys : List String) (pre post : List (String × Value))
    (k : String) (u1 u2 : Value) (hk : keys.contains (strLower k) = true) :
    redact keys (.map (pre ++ (k, u1) :: post)) =
      redact keys (.map (pre ++ (k, u2) :: post)) := by
  simp only [redact]
  rw [redactEntries_append, redactEntries_append,
    redactEntries_cons_pos keys k u1 post hk, redactEntries_cons_pos keys k u2 post hk]

/-- Witness for C9: the scenario with a changed password, masked on both
sides. -/
theorem c9_redact_witness :
    ["password"].contains (strLower "Password") = true ∧
    redact ["password"] (.map [("Password", Value.str "x")]) =
      redact ["password"] (.map [("Password", Value.str "y")]) :=
  ⟨rfl,
    c9_redact_noninterference ["password"] [] [] "Password" (Value.str "x") (Value.str "y") rfl⟩

/-! # Claim C7: key restriction on a replace -/

/-- C7: under a replace action set (both `create` and `delete` declared),
`restrict_before` on two mappings is the dict whose entries are exactly the
keys of `after`, each bound to `before`'s value for that key or to the `None`
absence sentinel when `before` never had it; in particular its key list is
exactly the key list of `after`. -/
theorem c7_restrict_keys (bkvs akvs : List (String × Value)) (actions : List String)
    (hc : actions.contains "create" = true) (hd : actions.contains "delete" = true) :
    restrict_before (.map bkvs) (.map akvs) actions = .map (restrictEntries bkvs akvs) ∧
    entryKeys (restrictEntries bkvs akvs) = entryKeys akvs := by
  constructor
  · have hup : (decide (actions = ["update"]) : Bool) = false := by
      apply decide_eq_false
      rintro rfl
      exact absurd hc (by decide)
    simp only [restrict_before, coerce_map, hc, hd, hup, Bool.and_self, cond_false, cond_true]
  · simp [entryKeys, restrictEntries]

/-- Witness for C7 at a concrete replace. -/
theorem c7_restrict_witness :
    (["create", "delete"].contains "create" = true) ∧
    restrict_before (.map [("a", Value.num 1)])
        (.map [("a", Value.num 2), ("b", Value.num 3)]) ["create", "delete"] =
      .map [("a", Value.num 1), ("b", Value.null)] := by
  refine ⟨rfl, ?_⟩
  rw [(c7_restrict_keys [("a", Value.num 1)] [("a", Value.num 2), ("b", Value.num 3)]
    ["create", "delete"] rfl rfl).1]
  rfl

/-! # Claim C4: suppression of removals -/

theorem noRemoved_append (xs ys : List Line) :
    noRemoved (xs ++ ys) = (noRemoved xs && noRemoved ys) := by
  simp [noRemoved]

theorem noRemoved_cons (l : Line) (ls : List Line) :
    noRemoved (l :: ls) = (!(l.tag == Tag.removed) && noRemoved ls) := rfl

theorem diffListLine_noRemoved (b a : Value) (pad : String) :
    noRemoved (diffListLine b a pad true) = true := by
  simp only [diffListLine]
  cases hb : b.isNull with
  | true => rfl
  | false =>
    cases ha : a.isNull with
    | true => rfl
    | false => cases he : pyEq b a <;> rfl

theorem diffListGo_noRemoved (before : Value) (lb : Nat) (after : List Value) (pad : String)
    (idxs : List Nat) :
    ∀ ls, diffListGo before lb after pad true idxs = some ls → noRemoved ls = true := by
  induction idxs with
  | nil =>
    intro ls h
    simp only [diffListGo] at h
    cases h
    rfl
  | cons i rest ih =>
    intro ls h
    simp only [diffListGo] at h
    cases hb : (if i < lb then pyIndex before i else some Value.null) with
    | none => rw [hb] at h; cases h
    | some b =>
      rw [hb] at h
      cases hrec : diffListGo before lb after pad true rest with
      | none => rw [hrec] at h; cases h
      | some ls2 =>
        rw [hrec] at h
        cases h
        rw [noRemoved_append, diffListLine_noRemoved, ih ls2 hrec]
        rfl

theorem diff_list_noRemoved (before : Value) (xs : List Value) (ind : Nat) (ls : List Line)
    (h : diff_list before xs ind true = some ls) : noRemoved ls = true := by
  simp only [diff_list] at h
  cases hl : pyLen before with
  | none => rw [hl] at h; cases h
  | some lb =>
    rw [hl] at h
    exact diffListGo_noRemoved before lb xs (padOf ind) _ ls h

theorem mem_insertBlock {q p : String × List Line} {l : List (String × List Line)} :
    q ∈ insertBlock p l ↔ q = p ∨ q ∈ l := by
  induction l with
  | nil => simp [insertBlock]
  | cons r rest ih =>
    simp only [insertBlock]
    split
    · simp [List.mem_cons]
    · simp only [List.mem_cons, ih]
      tauto

theorem mem_sortBlocks {q : String × List Line} {l : List (String × List Line)} :
    q ∈ sortBlocks l ↔ q ∈ l := by
  induction l with
  | nil => simp [sortBlocks]
  | cons p rest ih => simp [sortBlocks, mem_insertBlock, ih]

theorem joinBlocks_noRemoved (blocks : List (String × List Line))
    (h : ∀ blk ∈ blocks, noRemoved blk.2 = true) : noRemoved (joinBlocks blocks) = true := by
  induction blocks with
  | nil => rfl
  | cons blk rest ih =>
    simp only [joinBlocks]
    rw [noRemoved_append, h blk (by simp), ih fun b hb => h b (by simp [hb])]
    rfl

theorem keyBlock_noRemoved (k : String) (a : Value) (blk : Option Value) (pad : String)
    (sub : Option (List Line))
    (hsub : ∀ s2, sub = some s2 → noRemoved s2 = true) :
    ∀ hs, keyBlock k a blk pad sub = some hs → noRemoved hs = true := by
  intro hs hh
  cases blk with
  | none =>
    simp only [keyBlock] at hh
    cases hd : sub with
    | none => rw [hd] at hh; cases hh
    | some s2 =>
      rw [hd] at hh
      cases hh
      rw [noRemoved_cons, hsub s2 hd]
      rfl
  | some b =>
    simp only [keyBlock] at hh
    cases he : pyEq b a <;> rw [he] at hh
    · rw [cond_false] at hh
      cases hc : a.isContainer <;> rw [hc] at hh
      · rw [cond_false] at hh
        cases hh
        rfl
      · rw [cond_true] at hh
        cases hd : sub with
        | none => rw [hd] at hh; cases hh
        | some s2 =>
          rw [hd] at hh
          cases hh
          rw [noRemoved_cons, hsub s2 hd]
          rfl
    · rw [cond_true] at hh
      cases hc : a.isContainer <;> rw [hc] at hh
      · rw [cond_false] at hh
        cases hh
        rfl
      · rw [cond_true] at hh
        cases hd : sub with
        | none => rw [hd] at hh; cases hh
        | some s2 =>
          rw [hd] at hh
          cases hh
          rw [noRemoved_cons, hsub s2 hd]
          rfl

theorem diffBlocks_noRemoved (bkvs entries : List (String × Value)) (ind : Nat)
    (hrec : ∀ ka ∈ entries, ∀ (b : Value) (ind2 : Nat) (sub : List Line),
      diff b ka.2 ind2 true = some sub → noRemoved sub = true) :
    ∀ blocks, diffBlocks bkvs entries ind true = some blocks →
      ∀ blk ∈ blocks, noRemoved blk.2 = true := by
  induction entries with
  | nil =>
    intro blocks h
    cases h
    simp
  | cons ka rest ih =>
    obtain ⟨k, a⟩ := ka
    intro blocks h
    have hrec1 : ∀ (b : Value) (ind2 : Nat) (sub : List Line),
        diff b a ind2 true = some sub → noRemoved sub = true :=
      fun b ind2 sub hs => hrec ⟨k, a⟩ (by simp) b ind2 sub hs
    have hrecR : ∀ ka2 ∈ rest, ∀ (b : Value) (ind2 : Nat) (sub : List Line),
        diff b ka2.2 ind2 true = some sub → noRemoved sub = true :=
      fun ka2 hka2 => hrec ka2 (by simp [hka2])
    simp only [diffBlocks] at h
    cases hkb : keyBlock k a (alookup k bkvs) (padOf ind)
        (diff ((alookup k bkvs).getD (.map [])) a (ind + 1) true) with
    | none => rw [hkb] at h; cases h
    | some hs =>
      rw [hkb] at h
      cases hdb : diffBlocks bkvs rest ind true with
      | none => rw [hdb] at h; cases h
      | some ts =>
        rw [hdb] at h
        cases h
        intro blk hblk
        rcases List.mem_cons.mp hblk with h1 | h1
        · rw [h1]
          exact keyBlock_noRemoved k a (alookup k bkvs) (padOf ind) _
            (fun s2 hd => hrec1 _ _ s2 hd) hs hkb
        · exact ih hrecR ts hdb blk h1

theorem diff_noRemoved_aux (n : Nat) :
    ∀ (after before : Value) (ind : Nat) (ls : List Line),
      sizeOf after < n → diff before after ind true = some ls → noRemoved ls = true := by
  induction n with
  | zero => intro after _ _ _ h; omega
  | succ n ih =>
    intro after before ind ls hsz h
    match after with
    | .null | .bool _ | .num _ | .str _ =>
      simp only [diff] at h
      cases he : pyEq before _ <;> rw [he] at h <;> cases h <;> rfl
    | .seq xs =>
      simp only [diff] at h
      exact diff_list_noRemoved _ xs ind ls h
    | .map akvs =>
      simp only [diff] at h
      cases akvs with
      | nil =>
        cases hb2 : (bif pyTruthy before then before else Value.map []) <;> rw [hb2] at h <;>
          simp at h <;> subst h <;> rfl
      | cons ka rest =>
        cases hb2 : (bif pyTruthy before then before else Value.map []) with
        | null => rw [hb2] at h; simp at h
        | bool b => rw [hb2] at h; simp at h
        | num m => rw [hb2] at h; simp at h
        | str s => rw [hb2] at h; simp at h
        | seq xs => rw [hb2] at h; simp at h
        | map bkvs =>
          rw [hb2] at h
          cases hdb : diffBlocks bkvs (ka :: rest) ind true with
          | none => simp [hdb] at h
          | some blocks =>
            simp only [hdb, cond_true, Option.some.injEq] at h
            subst h
            apply joinBlocks_noRemoved
            intro blk hblk
            have hmem : blk ∈ blocks := mem_sortBlocks.mp hblk
            refine diffBlocks_noRemoved bkvs (ka :: rest) ind ?_ blocks hdb blk hmem
            intro ka2 hka2 b ind2 sub hs
            have h1 := List.sizeOf_lt_of_mem hka2
            have h2 : sizeOf (Value.map (ka :: rest)) = 1 + sizeOf (ka :: rest) := by simp
            have h3 : sizeOf ka2.2 ≤ sizeOf ka2 := by
              obtain ⟨k2, a2⟩ := ka2
              simp
            exact ih ka2.2 b ind2 sub (by omega) hs

/-- C4: with removals suppressed, rendering any pair of Values emits no line
tagged `removed` (no `diff-del` annotation), at any nesting depth, in both the
mapping and the sequence branches of the renderer. -/
theorem c4_suppress_no_removed (before after : Value) (indent : Nat) (ls : List Line)
    (h : diff before after indent true = some ls) : noRemoved ls = true :=
  diff_noRemoved_aux (sizeOf after + 1) after before indent ls (by omega) h

/-- Witness for C4 on a concrete render whose output is non-empty and whose
before side has a key missing from after. -/
theorem c4_suppress_witness :
    noRemoved (((diff (.map [("a", Value.num 1), ("b", Value.num 2)])
      (.map [("c", Value.num 3)]) 0 true).getD []) ) = true :=
  c4_suppress_no_removed (.map [("a", Value.num 1), ("b", Value.num 2)])
    (.map [("c", Value.num 3)]) 0 _ rfl

/-! # Claim C10: shape invariant of the change extractor -/

theorem extractEntries_cons_absent (bkvs : List (String × Value)) (k : String) (av : Value)
    (rest : List (String × Value)) (h : alookup k bkvs = none) :
    extractEntries bkvs ((k, av) :: rest) =
      ((k, .null) :: (extractEntries bkvs rest).1, (k, av) :: (extractEntries bkvs rest).2) := by
  simp only [extractEntries, h]

theorem extractEntries_cons_skip (bkvs : List (String × Value)) (k : String) (av bv : Value)
    (rest : List (String × Value)) (h : alookup k bkvs = some bv)
    (hskip : ((extract_changes bv av).1.isNull && (extract_changes bv av).2.isNull) = true) :
    extractEntries bkvs ((k, av) :: rest) = extractEntries bkvs rest := by
  simp only [extractEntries, h]
  rw [hskip, cond_true]

theorem extractEntries_cons_keep (bkvs : List (String × Value)) (k : String) (av bv : Value)
    (rest : List (String × Value)) (h : alookup k bkvs = some bv)
    (hkeep : ((extract_changes bv av).1.isNull && (extract_changes bv av).2.isNull) = false) :
    extractEntries bkvs ((k, av) :: rest) =
      ((k, (extract_changes bv av).1) :: (extractEntries bkvs rest).1,
       (k, (extract_changes bv av).2) :: (extractEntries bkvs rest).2) := by
  simp only [extractEntries, h]
  rw [hkeep, cond_false]

theorem extractEntries_keys (bkvs akvs : List (String × Value)) :
    entryKeys (extractEntries bkvs akvs).1 = entryKeys (extractEntries bkvs akvs).2 ∧
    ∀ k ∈ entryKeys (extractEntries bkvs akvs).1, k ∈ entryKeys akvs := by
  induction akvs with
  | nil => exact ⟨rfl, by simp [extractEntries, entryKeys]⟩
  | cons ka rest ih =>
    obtain ⟨k, av⟩ := ka
    have hmono : ∀ k2 ∈ entryKeys rest, k2 ∈ entryKeys ((k, av) :: rest) := by
      intro k2 h2
      simp only [entryKeys, List.map_cons, List.mem_cons]
      exact Or.inr h2
    cases h : alookup k bkvs with
    | none =>
      rw [extractEntries_cons_absent bkvs k av rest h]
      constructor
      · simpa [entryKeys] using ih.1
      · intro k2 hk2
        simp only [entryKeys, List.map_cons, List.mem_cons] at hk2 ⊢
        rcases hk2 with h1 | h1
        · exact Or.inl h1
        · exact Or.inr (ih.2 k2 h1)
    | some bv =>
      cases hskip : ((extract_changes bv av).1.isNull && (extract_changes bv av).2.isNull) with
      | true =>
        rw [extractEntries_cons_skip bkvs k av bv rest h hskip]
        exact ⟨ih.1, fun k2 hk2 => hmono k2 (ih.2 k2 hk2)⟩
      | false =>
        rw [extractEntries_cons_keep bkvs k av bv rest h hskip]
        constructor
        · simpa [entryKeys] using ih.1
        · intro k2 hk2
          simp only [entryKeys, List.map_cons, List.mem_cons] at hk2 ⊢
          rcases hk2 with h1 | h1
          · exact Or.inl h1
          · exact Or.inr (ih.2 k2 h1)

/-- C10: on a pair of mappings the change extractor returns either the pair of
`None` absence sentinels or a pair of mappings with identical key lists, every
key of which is a key of `after`; it never returns one side absent with the
other a mapping, and never emits a key that is absent from `after`. -/
theorem c10_extract_shape (bkvs akvs : List (String × Value)) :
    extract_changes (.map bkvs) (.map akvs) = (Value.null, Value.null) ∨
    ∃ bo ao, extract_changes (.map bkvs) (.map akvs) = (Value.map bo, Value.map ao) ∧
      entryKeys bo = entryKeys ao ∧ ∀ k ∈ entryKeys bo, k ∈ entryKeys akvs := by
  have h := extractEntries_keys bkvs akvs
  rcases hE : extractEntries bkvs akvs with ⟨l1, l2⟩
  rw [hE] at h
  simp only at h
  cases l1 with
  | nil =>
    left
    have h2 : l2 = [] := by
      cases l2 with
      | nil => rfl
      | cons p r => simp [entryKeys] at h
    subst h2
    simp [extract_changes, hE]
  | cons p r =>
    right
    have h2 : l2 ≠ [] := by
      cases l2 with
      | nil => simp [entryKeys] at h
      | cons q s => simp
    refine ⟨p :: r, l2, ?_, h.1, h.2⟩
    have h2e : l2.isEmpty = false := by
      cases l2 with
      | nil => exact absurd rfl h2
      | cons q s => rfl
    simp [extract_changes, hE, h2e]

/-! # Claim C5: normalizer idempotence -/

theorem isNull_iff (v : Value) : v.isNull = true ↔ v = .null := by
  cases v <;> simp [Value.isNull]

theorem cleanList_cons_null (x : Value) (xs : List Value)
    (h : (clean_value false x).isNull = true) : cleanList (x :: xs) = cleanList xs := by
  simp only [cleanList]
  rw [h, cond_true]

theorem cleanList_cons_keep (x : Value) (xs : List Value)
    (h : (clean_value false x).isNull = false) :
    cleanList (x :: xs) = clean_value false x :: cleanList xs := by
  simp only [cleanList]
  rw [h, cond_false]

theorem cleanEntries_cons_null (k : String) (x : Value) (rest : List (String × Value))
    (h : (clean_value false x).isNull = true) :
    cleanEntries ((k, x) :: rest) = cleanEntries rest := by
  simp only [cleanEntries]
  rw [h, cond_true]

theorem cleanEntries_cons_keep (k : String) (x : Value) (rest : List (String × Value))
    (h : (clean_value false x).isNull = false) :
    cleanEntries ((k, x) :: rest) = (k, clean_value false x) :: cleanEntries rest := by
  simp only [cleanEntries]
  rw [h, cond_false]

theorem clean_seq_empty (xs : List Value) (h : (cleanList xs).isEmpty = true) (keepRoot : Bool) :
    clean_value keepRoot (.seq xs) = .null := by
  simp only [clean_value]
  rw [h, cond_true]

theorem clean_seq_keep (xs : List Value) (h : (cleanList xs).isEmpty = false) (keepRoot : Bool) :
    clean_value keepRoot (.seq xs) = .seq (cleanList xs) := by
  simp only [clean_value]
  rw [h, cond_false]

theorem clean_map_empty (kvs : List (String × Value)) (h : (cleanEntries kvs).isEmpty = true)
    (keepRoot : Bool) :
    clean_value keepRoot (.map kvs) = (bif keepRoot then .map [] else .null) := by
  simp only [clean_value]
  rw [h, cond_true]

theorem clean_map_keep (kvs : List (String × Value)) (h : (cleanEntries kvs).isEmpty = false)
    (keepRoot : Bool) :
    clean_value keepRoot (.map kvs) = .map (cleanEntries kvs) := by
  simp only [clean_value]
  rw [h, cond_false]

theorem cleanList_idem_of (xs : List Value)
    (h : ∀ x ∈ xs, clean_value false (clean_value false x) = clean_value false x) :
    cleanList (cleanList xs) = cleanList xs := by
  induction xs with
  | nil => rfl
  | cons x rest ih =>
    have hrest := ih fun y hy => h y (by simp [hy])
    cases hx : (clean_value false x).isNull with
    | true => rw [cleanList_cons_null x rest hx, hrest]
    | false =>
      rw [cleanList_cons_keep x rest hx]
      have hx2 : (clean_value false (clean_value false x)).isNull = false := by
        rw [h x (by simp)]
        exact hx
      rw [cleanList_cons_keep _ _ hx2, h x (by simp), hrest]

theorem cleanEntries_idem_of (kvs : List (String × Value))
    (h : ∀ kv ∈ kvs, clean_value false (clean_value false kv.2) = clean_value false kv.2) :
    cleanEntries (cleanEntries kvs) = cleanEntries kvs := by
  induction kvs with
  | nil => rfl
  | cons kv rest ih =>
    obtain ⟨k, x⟩ := kv
    have hrest := ih fun kv2 hkv2 => h kv2 (by simp [hkv2])
    have hx : clean_value false (clean_value false x) = clean_value false x := h ⟨k, x⟩ (by simp)
    cases hn : (clean_value false x).isNull with
    | true => rw [cleanEntries_cons_null k x rest hn, hrest]
    | false =>
      rw [cleanEntries_cons_keep k x rest hn]
      have hn2 : (clean_value false (clean_value false x)).isNull = false := by
        rw [hx]
        exact hn
      rw [cleanEntries_cons_keep _ _ _ hn2, hx, hrest]

theorem clean_idem_aux (n : Nat) :
    ∀ v : Value, sizeOf v < n →
      clean_value false (clean_value false v) = clean_value false v := by
  induction n with
  | zero => intro v hv; omega
  | succ n ih =>
    intro v hv
    match v with
    | .null | .bool _ | .num _ | .str _ => rfl
    | .seq xs =>
      have hcl : cleanList (cleanList xs) = cleanList xs := by
        apply cleanList_idem_of
        intro x hx
        have h1 := List.sizeOf_lt_of_mem hx
        have h2 : sizeOf (Value.seq xs) = 1 + sizeOf xs := by simp
        exact ih x (by omega)
      cases hE : (cleanList xs).isEmpty with
      | true => rw [clean_seq_empty xs hE false]; rfl
      | false =>
        rw [clean_seq_keep xs hE false]
        have hE2 : (cleanList (cleanList xs)).isEmpty = false := by rw [hcl]; exact hE
        rw [clean_seq_keep (cleanList xs) hE2 false, hcl]
    | .map kvs =>
      have hce : cleanEntries (cleanEntries kvs) = cleanEntries kvs := by
        apply cleanEntries_idem_of
        intro kv hkv
        have h1 := List.sizeOf_lt_of_mem hkv
        have h2 : sizeOf (Value.map kvs) = 1 + sizeOf kvs := by simp
        obtain ⟨k, x⟩ := kv
        have h3 : sizeOf ((k, x) : String × Value) = 1 + sizeOf k + sizeOf x := by simp
        exact ih x (by omega)
      cases hE : (cleanEntries kvs).isEmpty with
      | true => rw [clean_map_empty kvs hE false]; rfl
      | false =>
        rw [clean_map_keep kvs hE false]
        have hE2 : (cleanEntries (cleanEntries kvs)).isEmpty = false := by rw [hce]; exact hE
        rw [clean_map_keep (cleanEntries kvs) hE2 false, hce]

/-- C5: the Normalizer is idempotent — cleaning with the root empty mapping
preserved (`keep_root_empty_dict=True`, as the reporting pipeline calls it) is
a fixed point after one application: `normalize (normalize v) = normalize v`
for every Value `v`. -/
theorem c5_normalize_idem (v : Value) :
    clean_value true (clean_value true v) = clean_value true v := by
  match v with
  | .null | .bool _ | .num _ | .str _ => rfl
  | .seq xs =>
    cases hE : (cleanList xs).isEmpty with
    | true => rw [clean_seq_empty xs hE true]; rfl
    | false =>
      have hcl : cleanList (cleanList xs) = cleanList xs :=
        cleanList_idem_of xs fun x hx => clean_idem_aux (sizeOf x + 1) x (by omega)
      rw [clean_seq_keep xs hE true]
      have hE2 : (cleanList (cleanList xs)).isEmpty = false := by rw [hcl]; exact hE
      rw [clean_seq_keep (cleanList xs) hE2 true, hcl]
  | .map kvs =>
    cases hE : (cleanEntries kvs).isEmpty with
    | true => rw [clean_map_empty kvs hE true]; rfl
    | false =>
      have hce : cleanEntries (cleanEntries kvs) = cleanEntries kvs :=
        cleanEntries_idem_of kvs fun kv hkv => clean_idem_aux (sizeOf kv.2 + 1) kv.2 (by omega)
      rw [clean_map_keep kvs hE true]
      have hE2 : (cleanEntries (cleanEntries kvs)).isEmpty = false := by rw [hce]; exact hE
      rw [clean_map_keep (cleanEntries kvs) hE2 true, hce]

/-! # Claim C6: equality collapse of the change extractor -/

theorem wfList_mem {xs : List Value} (h : wfList xs = true) : ∀ x ∈ xs, wf x = true := by
  induction xs with
  | nil => simp
  | cons x rest ih =>
    simp only [wfList, Bool.and_eq_true] at h
    intro y hy
    rcases List.mem_cons.mp hy with h1 | h1
    · rw [h1]; exact h.1
    · exact ih h.2 y h1

theorem wfEntries_mem {kvs : List (String × Value)} (h : wfEntries kvs = true) :
    ∀ kv ∈ kvs, wf kv.2 = true := by
  induction kvs with
  | nil => simp
  | cons kv rest ih =>
    simp only [wfEntries, Bool.and_eq_true] at h
    intro kv2 hkv2
    rcases List.mem_cons.mp hkv2 with h1 | h1
    · rw [h1]; exact h.1
    · exact ih h.2 kv2 h1

theorem alookup_of_mem_distinct {k : String} {v : Value} {kvs : List (String × Value)}
    (hd : distinctKeys (entryKeys kvs) = true) (hm : (k, v) ∈ kvs) :
    alookup k kvs = some v := by
  induction kvs with
  | nil => simp at hm
  | cons kv rest ih =>
    obtain ⟨k0, v0⟩ := kv
    simp only [entryKeys, List.map_cons, distinctKeys, Bool.and_eq_true] at hd
    rcases List.mem_cons.mp hm with h1 | h1
    · obtain ⟨rfl, rfl⟩ := Prod.mk.injEq .. ▸ h1
      simp [alookup]
    · have hk : k0 ≠ k := by
        rintro rfl
        have hforall : ∀ x : Value, (k0, x) ∉ rest := by simpa using hd.1
        exact hforall v h1
      simp only [alookup, if_neg hk]
      exact ih (by simpa [entryKeys] using hd.2) h1

theorem pyEqList_refl_of (xs : List Value) (h : ∀ x ∈ xs, pyEq x x = true) :
    pyEqList xs xs = true := by
  induction xs with
  | nil => rfl
  | cons x rest ih =>
    simp only [pyEqList, Bool.and_eq_true]
    exact ⟨h x (by simp), ih fun y hy => h y (by simp [hy])⟩

theorem pyEqMap_of (sub kvs : List (String × Value))
    (h : ∀ kv ∈ sub, alookup kv.1 kvs = some kv.2 ∧ pyEq kv.2 kv.2 = true) :
    pyEqMap sub kvs = true := by
  induction sub with
  | nil => rfl
  | cons kv rest ih =>
    obtain ⟨k, v⟩ := kv
    have h1 := h ⟨k, v⟩ (by simp)
    simp only [pyEqMap, h1.1, Bool.and_eq_true]
    exact ⟨h1.2, ih fun kv2 hkv2 => h kv2 (by simp [hkv2])⟩

theorem pyEq_refl_aux (n : Nat) : ∀ v : Value, sizeOf v < n → wf v = true → pyEq v v = true := by
  induction n with
  | zero => intro v hv; omega
  | succ n ih =>
    intro v hv hwf
    match v with
    | .null => rfl
    | .bool b => simp [pyEq]
    | .num m => simp [pyEq]
    | .str s => simp [pyEq]
    | .seq xs =>
      simp only [pyEq]
      apply pyEqList_refl_of
      intro x hx
      have h1 := List.sizeOf_lt_of_mem hx
      have h2 : sizeOf (Value.seq xs) = 1 + sizeOf xs := by simp
      have h3 : wf x = true := wfList_mem (by simpa [wf] using hwf) x hx
      exact ih x (by omega) h3
    | .map kvs =>
      simp only [wf, Bool.and_eq_true] at hwf
      simp only [pyEq, Bool.and_eq_true]
      refine ⟨by simp, ?_⟩
      apply pyEqMap_of
      intro kv hkv
      refine ⟨alookup_of_mem_distinct hwf.1 (by simpa using hkv), ?_⟩
      have h1 := List.sizeOf_lt_of_mem hkv
      have h2 : sizeOf (Value.map kvs) = 1 + sizeOf kvs := by simp
      obtain ⟨k, x⟩ := kv
      have h3 : sizeOf ((k, x) : String × Value) = 1 + sizeOf k + sizeOf x := by simp
      exact ih x (by omega) (wfEntries_mem hwf.2 ⟨k, x⟩ hkv)

theorem extractEntries_self_of (kvs sub : List (String × Value))
    (h : ∀ kv ∈ sub, alookup kv.1 kvs = some kv.2 ∧
      extract_changes kv.2 kv.2 = (Value.null, Value.null)) :
    extractEntries kvs sub = ([], []) := by
  induction sub with
  | nil => rfl
  | cons kv rest ih =>
    obtain ⟨k, av⟩ := kv
    have h1 := h ⟨k, av⟩ (by simp)
    rw [extractEntries_cons_skip kvs k av av rest h1.1 (by rw [h1.2]; rfl)]
    exact ih fun kv2 hkv2 => h kv2 (by simp [hkv2])

theorem extract_self_aux (n : Nat) :
    ∀ v : Value, sizeOf v < n → wf v = true →
      extract_changes v v = (Value.null, Value.null) := by
  induction n with
  | zero => intro v hv; omega
  | succ n ih =>
    intro v hv hwf
    match v with
    | .null => rfl
    | .bool b => simp [extract_changes, pyEq]
    | .num m => simp [extract_changes, pyEq]
    | .str s => simp [extract_changes, pyEq]
    | .seq xs =>
      have hrefl : pyEqList xs xs = true := by
        apply pyEqList_refl_of
        intro x hx
        have h1 := List.sizeOf_lt_of_mem hx
        have h2 : sizeOf (Value.seq xs) = 1 + sizeOf xs := by simp
        exact pyEq_refl_aux (sizeOf x + 1) x (by omega) (wfList_mem (by simpa [wf] using hwf) x hx)
      simp only [extract_changes]
      rw [hrefl, cond_true]
    | .map kvs =>
      simp only [wf, Bool.and_eq_true] at hwf
      have hself : extractEntries kvs kvs = ([], []) := by
        apply extractEntries_self_of
        intro kv hkv
        refine ⟨alookup_of_mem_distinct hwf.1 (by simpa using hkv), ?_⟩
        have h1 := List.sizeOf_lt_of_mem hkv
        have h2 : sizeOf (Value.map kvs) = 1 + sizeOf kvs := by simp
        obtain ⟨k, x⟩ := kv
        have h3 : sizeOf ((k, x) : String × Value) = 1 + sizeOf k + sizeOf x := by simp
        exact ih x (by omega) (wfEntries_mem hwf.2 ⟨k, x⟩ hkv)
      simp only [extract_changes, hself]
      rfl

/-- C6: equality collapse of the change extractor — for every well-formed
Value `v` (mapping, sequence, scalar or Null; mapping keys unique as in a real
dict), `extract_changes v v` returns the pair of `None` absence sentinels. -/
theorem c6_extract_self (v : Value) (hwf : wf v = true) :
    extract_changes v v = (Value.null, Value.null) :=
  extract_self_aux (sizeOf v + 1) v (by omega) hwf

/-! # Claim C3: positional sequence comparison -/

/-- The coercion `before or []` is the identity on lists (an empty list is
falsy but coerces to itself). -/
theorem coerce_seq (xs : List Value) :
    (bif pyTruthy (Value.seq xs) then Value.seq xs else Value.seq []) = Value.seq xs := by
  cases xs with
  | nil => rfl
  | cons x rest => rfl

theorem seqIndex_eq (bs : List Value) (i : Nat) :
    (if i < bs.length then pyIndex (.seq bs) i else some Value.null) = some (elemOr bs i) := by
  by_cases hi : i < bs.length
  · rw [if_pos hi]
    simp only [pyIndex, elemOr]
    rw [List.getElem?_eq_getElem hi]
    rfl
  · rw [if_neg hi]
    simp only [elemOr]
    rw [List.getElem?_eq_none (by omega)]
    rfl

theorem diffListGo_seq (bs as : List Value) (pad : String) (s : Bool) (idxs : List Nat) :
    diffListGo (.seq bs) bs.length as pad s idxs =
      some (idxs.flatMap fun i => diffListLine (elemOr bs i) (elemOr as i) pad s) := by
  induction idxs with
  | nil => rfl
  | cons i rest ih =>
    simp only [diffListGo]
    rw [seqIndex_eq bs i, ih]
    rfl

theorem diff_list_seq (bs as : List Value) (ind : Nat) (s : Bool) :
    diff_list (.seq bs) as ind s =
      some ((List.range (max bs.length as.length)).flatMap fun i =>
        diffListLine (elemOr bs i) (elemOr as i) (padOf ind) s) := by
  simp only [diff_list, pyLen]
  exact diffListGo_seq bs as (padOf ind) s _

/-- C3 (amended): for a pair of Sequences the renderer is the concatenation of
the per-index lines over `range (max len-before len-after)`, where each side
reads as the `None` sentinel when its index is out of range — so a Null
element is indistinguishable from an out-of-range index.  Per index: a Null
(or missing) before-side yields an `added` line; a non-Null before-side with a
Null (or missing) after-side yields a `removed` line, or no line under
suppression; two non-Null elements yield `unchanged` when Python-equal and
`updated` otherwise. -/
theorem c3_positional_cases (bs as : List Value) (ind : Nat) (s : Bool) :
    diff (.seq bs) (.seq as) ind s =
      some ((List.range (max bs.length as.length)).flatMap fun i =>
        diffListLine (elemOr bs i) (elemOr as i) (padOf ind) s) ∧
    (∀ i, (elemOr bs i).isNull = true →
      (diffListLine (elemOr bs i) (elemOr as i) (padOf ind) s).map Line.tag = [Tag.added]) ∧
    (∀ i, (elemOr bs i).isNull = false → (elemOr as i).isNull = true →
      (diffListLine (elemOr bs i) (elemOr as i) (padOf ind) s).map Line.tag =
        (bif s then [] else [Tag.removed])) ∧
    (∀ i, (elemOr bs i).isNull = false → (elemOr as i).isNull = false →
      pyEq (elemOr bs i) (elemOr as i) = true →
      (diffListLine (elemOr bs i) (elemOr as i) (padOf ind) s).map Line.tag =
        [Tag.unchanged]) ∧
    (∀ i, (elemOr bs i).isNull = false → (elemOr as i).isNull = false →
      pyEq (elemOr bs i) (elemOr as i) = false →
      (diffListLine (elemOr bs i) (elemOr as i) (padOf ind) s).map Line.tag =
        [Tag.updated]) := by
  refine ⟨?_, ?_, ?_, ?_, ?_⟩
  · have hcoerce : diff (.seq bs) (.seq as) ind s = diff_list (.seq bs) as ind s := by
      simp only [diff]
      rw [coerce_seq]
    rw [hcoerce]
    exact diff_list_seq bs as ind s
  · intro i hb
    simp only [diffListLine]
    rw [hb, cond_true]
    rfl
  · intro i hb ha
    simp only [diffListLine]
    rw [hb, cond_false, ha, cond_true]
    cases s with
    | false => rfl
    | true => rfl
  · intro i hb ha he
    simp only [diffListLine]
    rw [hb, cond_false, ha, cond_false, he, cond_true]
    rfl
  · intro i hb ha he
    simp only [diffListLine]
    rw [hb, cond_false, ha, cond_false, he, cond_false]
    rfl

/-- Counterexample for C3 as frozen: a Null element in range on both sides is
rendered `added`, not `updated`/`unchanged` — the claim does not hold "for all
element values, including Null elements". -/
theorem c3_null_element_added :
    ((diff (.seq [Value.null]) (.seq [Value.num 1]) 0 false).getD []).map Line.tag =
      [Tag.added] ∧ Tag.added ≠ Tag.updated :=
  ⟨rfl, by decide⟩

/-- Witness for C3 on a concrete pair of sequences. -/
theorem c3_positional_witness :
    diff (.seq [Value.num 1]) (.seq [Value.num 1, Value.num 2]) 0 false =
      some ((List.range (max [Value.num 1].length [Value.num 1, Value.num 2].length)).flatMap
        fun i => diffListLine (elemOr [Value.num 1] i) (elemOr [Value.num 1, Value.num 2] i)
          (padOf 0) false) ∧
    (diffListLine (elemOr [Value.num 1] 1) (elemOr [Value.num 1, Value.num 2] 1)
      (padOf 0) false).map Line.tag = [Tag.added] ∧
    (diffListLine (elemOr [Value.num 1] 0) (elemOr [Value.num 1, Value.num 2] 0)
      (padOf 0) false).map Line.tag = [Tag.unchanged] :=
  ⟨(c3_positional_cases [Value.num 1] [Value.num 1, Value.num 2] 0 false).1,
    (c3_positional_cases [Value.num 1] [Value.num 1, Value.num 2] 0 false).2.1 1 rfl,
    (c3_positional_cases [Value.num 1] [Value.num 1, Value.num 2] 0 false).2.2.2.1 0
      rfl rfl rfl⟩

/-! # Claim C1: renderer totality -/

theorem compat_empty (a : Value) : compatible (.map []) a = true := by
  cases a with
  | null => rfl
  | bool b => rfl
  | num n => rfl
  | str s => rfl
  | seq xs => rfl
  | map kvs => rfl

theorem compatEntries_mem {bkvs entries : List (String × Value)}
    (h : compatEntries bkvs entries = true) :
    ∀ ka ∈ entries, compatible ((alookup ka.1 bkvs).getD (.map [])) ka.2 = true := by
  induction entries with
  | nil => simp
  | cons ka rest ih =>
    obtain ⟨k, a⟩ := ka
    simp only [compatEntries, Bool.and_eq_true] at h
    intro ka2 hka2
    rcases List.mem_cons.mp hka2 with h1 | h1
    · rw [h1]
      exact h.1
    · exact ih h.2 ka2 h1

theorem keyBlock_isSome (k : String) (a : Value) (blk : Option Value) (pad : String)
    (sub : Option (List Line)) (hsub : sub.isSome = true) :
    (keyBlock k a blk pad sub).isSome = true := by
  obtain ⟨s2, rfl⟩ : ∃ s2, sub = some s2 := Option.isSome_iff_exists.mp hsub
  cases blk with
  | none => rfl
  | some b =>
    simp only [keyBlock]
    cases pyEq b a <;> cases a.isContainer <;> rfl

theorem diffBlocks_isSome (bkvs entries : List (String × Value)) (ind : Nat) (s : Bool)
    (hrec : ∀ ka ∈ entries,
      (diff ((alookup ka.1 bkvs).getD (.map [])) ka.2 (ind + 1) s).isSome = true) :
    (diffBlocks bkvs entries ind s).isSome = true := by
  induction entries with
  | nil => rfl
  | cons ka rest ih =>
    obtain ⟨k, a⟩ := ka
    simp only [diffBlocks]
    have h1 : (diff ((alookup k bkvs).getD (.map [])) a (ind + 1) s).isSome = true :=
      hrec ⟨k, a⟩ (by simp)
    have h2 := keyBlock_isSome k a (alookup k bkvs) (padOf ind) _ h1
    obtain ⟨hs, hkb⟩ := Option.isSome_iff_exists.mp h2
    obtain ⟨ts, hdb⟩ := Option.isSome_iff_exists.mp (ih fun ka2 hka2 => hrec ka2 (by simp [hka2]))
    rw [hkb, hdb]
    rfl

theorem diff_total_aux (n : Nat) :
    ∀ (after before : Value) (ind : Nat) (s : Bool), sizeOf after < n →
      compatible before after = true → (diff before after ind s).isSome = true := by
  induction n with
  | zero => intro a _ _ _ h; omega
  | succ n ih =>
    intro after before ind s hsz hc
    match after with
    | .null | .bool _ | .num _ | .str _ =>
      simp only [diff]
      cases pyEq before _ <;> rfl
    | .seq xs =>
      simp only [diff]
      cases ht : pyTruthy before with
      | false =>
        rw [cond_false, diff_list_seq]
        rfl
      | true =>
        rw [cond_true]
        have hseq : before.isSeq = true := by
          simp only [compatible] at hc
          rw [ht] at hc
          simpa using hc
        cases before <;> simp [Value.isSeq] at hseq
        rw [diff_list_seq]
        rfl
    | .map akvs =>
      simp only [diff]
      cases ht : pyTruthy before with
      | false =>
        rw [cond_false]
        cases akvs with
        | nil => cases s <;> rfl
        | cons ka rest =>
          have hdb : (diffBlocks [] (ka :: rest) ind s).isSome = true := by
            apply diffBlocks_isSome
            intro ka2 hka2
            apply ih ka2.2 _ (ind + 1) s
            · have h1 := List.sizeOf_lt_of_mem hka2
              have h2 : sizeOf (Value.map (ka :: rest)) = 1 + sizeOf (ka :: rest) := by simp
              have h3 : sizeOf ka2.2 ≤ sizeOf ka2 := by
                obtain ⟨k2, a2⟩ := ka2
                simp
              omega
            · exact compat_empty ka2.2
          obtain ⟨blocks, hdbe⟩ := Option.isSome_iff_exists.mp hdb
          simp only [hdbe]
          cases s <;> rfl
      | true =>
        rw [cond_true]
        match before, hc with
        | .map bkvs, hc =>
          have hce : compatEntries bkvs akvs = true := by
            simp only [compatible] at hc
            rw [ht] at hc
            simpa using hc
          cases akvs with
          | nil => cases s <;> rfl
          | cons ka rest =>
            have hdb : (diffBlocks bkvs (ka :: rest) ind s).isSome = true := by
              apply diffBlocks_isSome
              intro ka2 hka2
              apply ih ka2.2 _ (ind + 1) s
              · have h1 := List.sizeOf_lt_of_mem hka2
                have h2 : sizeOf (Value.map (ka :: rest)) = 1 + sizeOf (ka :: rest) := by simp
                have h3 : sizeOf ka2.2 ≤ sizeOf ka2 := by
                  obtain ⟨k2, a2⟩ := ka2
                  simp
                omega
              · exact compatEntries_mem hce ka2 hka2
            obtain ⟨blocks, hdbe⟩ := Option.isSome_iff_exists.mp hdb
            simp only [hdbe]
            cases s <;> rfl
        | .null, hc => exact absurd ht (by decide)
        | .bool _, hc =>
          simp only [compatible] at hc
          rw [ht] at hc
          simp at hc
        | .num _, hc =>
          simp only [compatible] at hc
          rw [ht] at hc
          simp at hc
        | .str _, hc =>
          simp only [compatible] at hc
          rw [ht] at hc
          simp at hc
        | .seq _, hc =>
          simp only [compatible] at hc
          rw [ht] at hc
          simp at hc

/-- C1 (amended): the renderer is total on shape-compatible pairs — wherever
`after` is a Sequence the corresponding `before` is falsy (hence coerced to
the empty sequence) or itself a Sequence, and wherever `after` is a Mapping
the corresponding `before` is falsy (coerced to the empty mapping) or a
Mapping whose entries are recursively compatible.  A truthy `before` of a
different shape is not coerced and the renderer raises (see the
counterexample). -/
theorem c1_render_total_of_compatible (before after : Value) (indent : Nat) (suppress : Bool)
    (hc : compatible before after = true) :
    (diff before after indent suppress).isSome = true :=
  diff_total_aux (sizeOf after + 1) after before indent suppress (by omega) hc

/-- Counterexample for C1 as frozen: a non-empty Mapping before with a
Sequence after raises (integer indexing of a dict), and a non-empty Sequence
before with a Mapping after raises (`.get` on a list); neither is coerced to
the compatible empty shape. -/
theorem c1_mismatch_raises :
    diff (.map [("a", Value.num 1)]) (.seq [Value.num 1]) 0 false = none ∧
    diff (.seq [Value.num 1]) (.map [("a", Value.num 1)]) 0 false = none :=
  ⟨rfl, rfl⟩

/-- Witness for C1 on a concrete compatible pair. -/
theorem c1_render_total_witness :
    compatible (.map [("a", Value.num 1)])
      (.map [("a", Value.num 2), ("b", Value.str "x")]) = true ∧
    (diff (.map [("a", Value.num 1)]) (.map [("a", Value.num 2), ("b", Value.str "x")])
      0 false).isSome = true :=
  ⟨rfl, c1_render_total_of_compatible (.map [("a", Value.num 1)])
    (.map [("a", Value.num 2), ("b", Value.str "x")]) 0 false rfl⟩

/-! # Claim C2: the missing-metadata failure of the grouping stage -/

theorem processResource_split (beforeRaw afterRaw : Value) (keys actions : List String)
    (bkvs akvs : List (String × Value))
    (hno : actions ≠ ["no-op"])
    (hne : pyEq (cleanCoerce beforeRaw) (cleanCoerce afterRaw) = false)
    (hb : redact keys (cleanCoerce beforeRaw) = .map bkvs)
    (ha : redact keys (cleanCoerce afterRaw) = .map akvs) :
    processResource beforeRaw afterRaw keys actions =
      (bif pyTruthy ((alookup "device_name" akvs).getD .null) then
        some (.entry ((alookup "device_name" akvs).getD .null)
          (.map (popKey "device_name" bkvs)) (.map (popKey "device_name" akvs)))
      else
        bif pyTruthy ((alookup "device_name" bkvs).getD .null) then
          some (.entry ((alookup "device_name" bkvs).getD .null)
            (.map (popKey "device_name" bkvs)) (.map (popKey "device_name" akvs)))
        else some Outcome.fail) := by
  simp only [processResource]
  rw [if_neg hno, hne, cond_false, hb, ha]

/-- C2 (amended): for a resource past the no-op skip whose normalized sides
differ, the grouping stage raises the structured missing-metadata failure if
and only if the `device_name` value is falsy-or-missing on the redacted after
side and falsy-or-missing on the redacted before side (a truthiness test, not
a key-presence test: a present but falsy value such as the empty string also
raises); when either side's value is truthy, the entry is produced with the
after side preferred as the group key and `device_name` popped from both
trees. -/
theorem c2_grouping_fail_iff_falsy (beforeRaw afterRaw : Value) (keys actions : List String)
    (bkvs akvs : List (String × Value))
    (hno : actions ≠ ["no-op"])
    (hne : pyEq (cleanCoerce beforeRaw) (cleanCoerce afterRaw) = false)
    (hb : redact keys (cleanCoerce beforeRaw) = .map bkvs)
    (ha : redact keys (cleanCoerce afterRaw) = .map akvs) :
    (processResource beforeRaw afterRaw keys actions = some Outcome.fail ↔
      pyTruthy ((alookup "device_name" akvs).getD .null) = false ∧
      pyTruthy ((alookup "device_name" bkvs).getD .null) = false) ∧
    ((pyTruthy ((alookup "device_name" akvs).getD .null) = true ∨
      pyTruthy ((alookup "device_name" bkvs).getD .null) = true) →
      processResource beforeRaw afterRaw keys actions =
        some (Outcome.entry
          (bif pyTruthy ((alookup "device_name" akvs).getD .null) then
            (alookup "device_name" akvs).getD .null
          else (alookup "device_name" bkvs).getD .null)
          (.map (popKey "device_name" bkvs)) (.map (popKey "device_name" akvs)))) := by
  have hsplit := processResource_split beforeRaw afterRaw keys actions bkvs akvs hno hne hb ha
  rw [hsplit]
  cases hda : pyTruthy ((alookup "device_name" akvs).getD .null) with
  | true =>
    constructor
    · simp [hda]
    · intro _
      rfl
  | false =>
    cases hdb : pyTruthy ((alookup "device_name" bkvs).getD .null) with
    | true =>
      constructor
      · simp [hdb]
      · intro _
        rfl
    | false =>
      constructor
      · simp
      · intro hor
        rcases hor with h1 | h1 <;> simp at h1

/-- Counterexample for C2 as frozen: a resource with an effective change whose
`device_name` is present in the redacted after tree but bound to a falsy value
(the empty string) still raises the structured failure, although the claim
requires the failure only when the key is absent from both trees. -/
theorem c2_falsy_device_fails :
    processResource (.map []) (.map [("device_name", Value.str ""), ("x", Value.num 1)]) []
      ["create"] = some Outcome.fail ∧
    redact [] (cleanCoerce (.map [("device_name", Value.str ""), ("x", Value.num 1)])) =
      .map [("device_name", Value.str ""), ("x", Value.num 1)] ∧
    (alookup "device_name" [("device_name", Value.str ""), ("x", Value.num 1)]).isSome = true :=
  ⟨rfl, rfl, rfl⟩

/-- Witness for C2 at a resource with a truthy group key on both sides. -/
theorem c2_grouping_witness :
    (["update"] ≠ ["no-op"]) ∧
    pyEq (cleanCoerce (.map [("device_name", Value.str "d"), ("x", Value.num 1)]))
      (cleanCoerce (.map [("device_name", Value.str "d"), ("x", Value.num 2)])) = false ∧
    processResource (.map [("device_name", Value.str "d"), ("x", Value.num 1)])
      (.map [("device_name", Value.str "d"), ("x", Value.num 2)]) [] ["update"] =
      some (Outcome.entry (Value.str "d") (.map [("x", Value.num 1)])
        (.map [("x", Value.num 2)])) := by
  refine ⟨by decide, rfl, ?_⟩
  have h := (c2_grouping_fail_iff_falsy
    (.map [("device_name", Value.str "d"), ("x", Value.num 1)])
    (.map [("device_name", Value.str "d"), ("x", Value.num 2)]) [] ["update"]
    [("device_name", Value.str "d"), ("x", Value.num 1)]
    [("device_name", Value.str "d"), ("x", Value.num 2)]
    (by decide) rfl rfl rfl).2 (Or.inl rfl)
  rw [h]
  rfl

/-- Witness for C6 on a concrete nested value. -/
theorem c6_extract_self_witness :
    wf (.map [("a", Value.num 1), ("b", Value.seq [Value.str "x"])]) = true ∧
    extract_changes (.map [("a", Value.num 1), ("b", Value.seq [Value.str "x"])])
        (.map [("a", Value.num 1), ("b", Value.seq [Value.str "x"])]) =
      (Value.null, Value.null) :=
  ⟨rfl, c6_extract_self (.map [("a", Value.num 1), ("b", Value.seq [Value.str "x"])]) rfl⟩

end TfReport
